import Mathlib

/-!
Verification of the wikitext genre-extraction pipeline (genre_script.py) and
the artist network assembly (rock_network.py).

Texts are modelled as Lists of Chars (with String wrappers matching the
source function names).  Python regular-expression passes are modelled as
explicit left-to-right scanners with the same matching semantics
(leftmost match, the documented greedy/lazy behaviour of each concrete
pattern, a failed match attempt advances the scan position by one
character, and a replacement is not rescanned).  Python str.lower() is
modelled on ASCII, which covers every string these claims mention.
Machine integers do not occur; Python ints are Int/Nat.
-/

set_option maxRecDepth 8000

namespace GenreScript

/-! ## Character helpers -/

/-- Whitespace characters of Python str.strip() and of the regex class \s. -/
def isPySpace (c : Char) : Bool :=
  c = ' ' ∨ c = '\t' ∨ c = '\n' ∨ c = '\r' ∨ c = '\x0b' ∨ c = '\x0c'

/-- ASCII uppercase test (code points 65 through 90, the letters A to Z). -/
def isUpperA (c : Char) : Bool := 65 ≤ c.toNat ∧ c.toNat ≤ 90

/-- Python str.lower(), modelled on ASCII letters. -/
def pyLower (c : Char) : Char :=
  if isUpperA c then Char.ofNat (c.toNat + 32) else c

def lowerL (l : List Char) : List Char := l.map pyLower

/-- Python str.strip(): drop leading and trailing whitespace. -/
def pyStrip (l : List Char) : List Char :=
  ((l.dropWhile isPySpace).reverse.dropWhile isPySpace).reverse

/-- Case-insensitive prefix test (re.IGNORECASE). -/
def startsWithCI (pat l : List Char) : Bool :=
  List.isPrefixOf (lowerL pat) (lowerL l)

/-- Substring occurrence test (Python in operator on str). -/
def hasSub (pat : List Char) : List Char → Bool
  | [] => pat.isEmpty
  | c :: rest => List.isPrefixOf pat (c :: rest) || hasSub pat rest

/-- Drop everything through the first occurrence of pat; none if pat never occurs. -/
def dropAfterSub (pat : List Char) : List Char → Option (List Char)
  | [] => none
  | c :: rest =>
    if List.isPrefixOf pat (c :: rest) then some ((c :: rest).drop pat.length)
    else dropAfterSub pat rest

/-! ## A generic rewrite scanner.

scanRw tryF models re.sub for the patterns used by the source: at each
position the matcher tryF either matches (returning the replacement text
and the remainder after the match) or the scan advances one character.
The fuel argument is always instantiated with the length of the text. -/

def scanRw (tryF : List Char → Option (List Char × List Char)) :
    Nat → List Char → List Char
  | 0, l => l
  | _ + 1, [] => []
  | f + 1, c :: rest =>
    match tryF (c :: rest) with
    | some (e, rem) => e ++ scanRw tryF f rem
    | none => c :: scanRw tryF f rest

/-! ## Tokens of the concrete regex patterns -/

def cmtOpenTok : List Char := ['<', '!', '-', '-']
def cmtCloseTok : List Char := ['-', '-', '>']
def refTok : List Char := ['<', 'r', 'e', 'f']
def refCloseTok : List Char := ['<', '/', 'r', 'e', 'f', '>']

/-! ## The individual rewrite passes (one per re.sub in the source) -/

/-- Matcher for the pattern <!--.*?--> with re.DOTALL. -/
def tryComment (l : List Char) : Option (List Char × List Char) :=
  if List.isPrefixOf cmtOpenTok l then
    match dropAfterSub cmtCloseTok (l.drop 4) with
    | some rem => some ([], rem)
    | none => none
  else none

def removeComments (l : List Char) : List Char := scanRw tryComment l.length l

/-- The greedy run [^>]* following an opening ref tag. -/
def tagRun (l : List Char) : List Char :=
  (l.drop 4).takeWhile (fun c => ¬ c = '>')

/-- The text from the first closing angle bracket after the ref tag. -/
def afterTagRun (l : List Char) : List Char :=
  (l.drop 4).drop (tagRun l).length

/-- Matcher for the pattern <ref[^>]*>.*?</ref> with re.DOTALL. -/
def tryRefPaired (l : List Char) : Option (List Char × List Char) :=
  if List.isPrefixOf refTok l then
    match afterTagRun l with
    | '>' :: afterGt =>
      match dropAfterSub refCloseTok afterGt with
      | some rem => some ([], rem)
      | none => none
    | _ => none
  else none

/-- Matcher for the pattern <ref[^>]*/> (self-closing reference). -/
def tryRefSelf (l : List Char) : Option (List Char × List Char) :=
  if List.isPrefixOf refTok l then
    match afterTagRun l with
    | '>' :: rest =>
      if (tagRun l).getLast? = some '/' then some ([], rest) else none
    | _ => none
  else none

/-- Matcher for the pattern <ref[^>]*> (stray opening reference tag). -/
def tryRefStray (l : List Char) : Option (List Char × List Char) :=
  if List.isPrefixOf refTok l then
    match afterTagRun l with
    | '>' :: rest => some ([], rest)
    | _ => none
  else none

/-- The greedy run [^\s]+ after a recognized url prefix of length k,
consumed together with the prefix; none when the run is empty. -/
def tryUrlTail (k : Nat) (l : List Char) : Option (List Char × List Char) :=
  if (l.drop k).takeWhile (fun c => ¬ isPySpace c) = [] then none
  else some ([], (l.drop k).drop ((l.drop k).takeWhile (fun c => ¬ isPySpace c)).length)

/-- Matcher for the pattern https?://[^\s]+ . -/
def tryHttp (l : List Char) : Option (List Char × List Char) :=
  if List.isPrefixOf ("https://".data) l then tryUrlTail 8 l
  else if List.isPrefixOf ("http://".data) l then tryUrlTail 7 l
  else none

/-- Matcher for the pattern www\.[^\s]+ . -/
def tryWww (l : List Char) : Option (List Char × List Char) :=
  if List.isPrefixOf ("www.".data) l then tryUrlTail 4 l else none

/-- The greedy run [^\]]+ of the group without the optional display part. -/
def wngGroup (rest : List Char) : List Char :=
  rest.takeWhile (fun c => ¬ c = ']')

/-- No-optional-group attempt of the wiki-link pattern: the group [^\]]+
followed by the closing brackets, starting right after the opening
brackets. -/
def wikiNoGroup (rest : List Char) : Option (List Char × List Char) :=
  if ¬ wngGroup rest = [] ∧ (rest.drop (wngGroup rest).length).take 2 = [']', ']']
  then some (wngGroup rest, (rest.drop (wngGroup rest).length).drop 2)
  else none

/-- The target run [^|\]]* before a display pipe. -/
def wgsPre (rest : List Char) : List Char :=
  rest.takeWhile (fun c => ¬ (c = '|' ∨ c = ']'))

/-- The text from the first pipe or closing bracket after the opening. -/
def wgsR1 (rest : List Char) : List Char := rest.drop (wgsPre rest).length

/-- The display run [^\]]+ after the pipe. -/
def wgsG (rest : List Char) : List Char :=
  (wgsR1 rest).tail.takeWhile (fun c => ¬ c = ']')

/-- The text after the display run. -/
def wgsR3 (rest : List Char) : List Char :=
  (wgsR1 rest).tail.drop (wgsG rest).length

/-- Matcher for the genre-script wiki-link pattern
\[\[(?:[^|\]]*\|)?([^\]]+)\]\] replaced by the captured group. -/
def tryWikiGS (l : List Char) : Option (List Char × List Char) :=
  if l.take 2 = ['[', '['] then
    if (wgsR1 (l.drop 2)).head? = some '|' then
      if ¬ wgsG (l.drop 2) = [] ∧ (wgsR3 (l.drop 2)).take 2 = [']', ']']
      then some (wgsG (l.drop 2), (wgsR3 (l.drop 2)).drop 2)
      else wikiNoGroup (l.drop 2)
    else wikiNoGroup (l.drop 2)
  else none

/-- Matcher for the pattern \{\{nowrap\|([^}]+)\}\} with re.IGNORECASE,
replaced by the captured group. -/
def tryNowrap (l : List Char) : Option (List Char × List Char) :=
  if startsWithCI ("\x7b\x7bnowrap|".data) l then
    let r := l.drop 9
    let g := r.takeWhile (fun c => ¬ c = '\x7d')
    let r2 := r.drop g.length
    if ¬ g = [] ∧ r2.take 2 = ['\x7d', '\x7d'] then some (g, r2.drop 2) else none
  else none

/-- Matcher for the pattern <br\s*/?> with re.IGNORECASE, replaced by a comma. -/
def tryBrTag (l : List Char) : Option (List Char × List Char) :=
  if startsWithCI ("<br".data) l then
    let r := (l.drop 3).dropWhile isPySpace
    let r2 := match r with
      | '/' :: t => t
      | _ => r
    match r2 with
    | '>' :: rest => some ([','], rest)
    | _ => none
  else none

/-- Matcher for the pattern \([^)]*\) removed outright. -/
def tryParen (l : List Char) : Option (List Char × List Char) :=
  match l with
  | '(' :: rest =>
    let t := rest.takeWhile (fun c => ¬ c = ')')
    match rest.drop t.length with
    | ')' :: rem => some ([], rem)
    | _ => none
  | _ => none

def removeParens (l : List Char) : List Char := scanRw tryParen l.length l

/-! ## Splitting and joining -/

/-- Split on every character satisfying p, keeping empty pieces
(re.split on a character class). -/
def splitOnP (p : Char → Bool) : List Char → List Char → List (List Char)
  | [], acc => [acc.reverse]
  | c :: r, acc =>
    if p c then acc.reverse :: splitOnP p r [] else splitOnP p r (c :: acc)

def splitChar (d : Char) (l : List Char) : List (List Char) :=
  splitOnP (fun c => c = d) l []

/-- re.split on \*+ : runs of stars are one separator. -/
def splitStarsGo : List Char → Bool → List Char → List (List Char)
  | [], _, acc => [acc.reverse]
  | c :: r, prev, acc =>
    if c = '*' then
      if prev then splitStarsGo r true acc
      else acc.reverse :: splitStarsGo r true []
    else splitStarsGo r false (c :: acc)

def splitStars (l : List Char) : List (List Char) := splitStarsGo l false []

/-- Join pieces with a single separator character (str.join). -/
def joinSep (sep : Char) : List (List Char) → List Char
  | [] => []
  | [x] => x
  | x :: y :: rest => x ++ sep :: joinSep sep (y :: rest)

/-- Python str.split() with no argument: whitespace runs, empties dropped. -/
def pyWords (l : List Char) : List (List Char) :=
  (splitOnP isPySpace l []).filter (fun w => ¬ w = [])

/-- The whitespace collapse pass: a space joined over str.split(). -/
def collapseWs (l : List Char) : List Char := joinSep ' ' (pyWords l)

/-! ## normalize_genre (genre_script.py lines 6-49) -/

def rockVariants : List (List Char × List Char) :=
  [("rock \x27n\x27 roll".data, "rock and roll".data),
   ("rock n roll".data, "rock and roll".data),
   ("rock\x27n\x27roll".data, "rock and roll".data),
   ("rock & roll".data, "rock and roll".data),
   ("rock n\x27 roll".data, "rock and roll".data)]

def bracketChars : List Char := ['[', ']']

def braceQuoteChars : List Char := ['\x7b', '\x7d', '\x22', '\x27', '\x60']

/-- The body of normalize_genre on character lists, one let per source pass. -/
def normList (g0 : List Char) : List Char :=
  let g1 := pyStrip (lowerL g0)
  let g2 := scanRw tryWikiGS g1.length g1
  let g3 := g2.filter (fun c => ¬ c ∈ bracketChars)
  let g4 := scanRw tryRefPaired g3.length g3
  let g5 := scanRw tryRefSelf g4.length g4
  let g6 := scanRw tryRefStray g5.length g5
  let g7 := scanRw tryComment g6.length g6
  let g8 := scanRw tryHttp g7.length g7
  let g9 := scanRw tryWww g8.length g8
  let g10 := g9.filter (fun c => ¬ c ∈ braceQuoteChars)
  let g11 := rockVariants.foldl (fun g vp => if g = vp.1 then vp.2 else g) g10
  let g12 := collapseWs g11
  pyStrip g12

/-- genre_script.normalize_genre. -/
def normalize_genre (s : String) : String := ⟨normList s.data⟩

/-! ## parse_genre_field (genre_script.py lines 76-197) -/

/-- The anchored rewrite ^\{\{[^|]*\|? : strip a leading template-name
prefix (everything from the opening braces through the first pipe). -/
def stripLeadTpl (l : List Char) : List Char :=
  if l.take 2 = ['\x7b', '\x7b'] then
    match (l.drop 2).dropWhile (fun c => ¬ c = '|') with
    | '|' :: r => r
    | t => t
  else l

/-- The anchored rewrite \}\}$ : remove a trailing pair of closing braces;
the dollar anchor also matches just before one final newline. -/
def stripTrailBr (l : List Char) : List Char :=
  match l.reverse with
  | '\x7d' :: '\x7d' :: r => r.reverse
  | '\n' :: '\x7d' :: '\x7d' :: r => ('\n' :: r).reverse
  | _ => l

def listTplNames : List (List Char) :=
  ["\x7b\x7bflatlist".data, "\x7b\x7bhlist".data, "\x7b\x7bflat list".data,
   "\x7b\x7bunbulleted list".data, "\x7b\x7bplainlist".data]

/-- re.search for \{\{(flatlist|hlist|flat list|unbulleted list|plainlist)
with re.IGNORECASE: the occurrence test. -/
def hasListTpl (l : List Char) : Bool :=
  listTplNames.any (fun p => hasSub p (lowerL l))

/-- The suffix of the text from the first list-template occurrence
(position of the match of \{\{(?:flatlist|...)[^{]* ). -/
def findListTplStart : List Char → Option (List Char)
  | [] => none
  | c :: rest =>
    if listTplNames.any (fun p => List.isPrefixOf p (lowerL (c :: rest)))
    then some (c :: rest)
    else findListTplStart rest

/-- The per-character depth-counting scan over a delimiter pair: the index
one past the position where the depth counter returns to zero, none if it
never does. -/
def delimScan (o c : Char) : List Char → Int → Nat → Option Nat
  | [], _, _ => none
  | ch :: rest, d, i =>
    if ch = o then delimScan o c rest (d + 1) (i + 1)
    else if ch = c then
      if d - 1 = 0 then some (i + 1) else delimScan o c rest (d - 1) (i + 1)
    else delimScan o c rest d (i + 1)

/-- The end_pos computed by the bracket-counting loop of the list-template
branch (0 when the depth never returns to zero). -/
def braceEndPos (l : List Char) : Nat := (delimScan '\x7b' '\x7d' l 0 0).getD 0

/-- genre_script.extract_nested_content (lines 51-74): the first balanced
span over the delimiter pair, or the whole text if the pair never closes
or the opening delimiter is absent. -/
def extract_nested_content (t : String) (o c : Char) : String :=
  if o ∈ t.data then
    let rest := t.data.dropWhile (fun ch => ¬ ch = o)
    match delimScan o c rest 0 0 with
    | some n => ⟨rest.take n⟩
    | none => t
  else t

def temporalKws : List (List Char) :=
  ["early".data, "later".data, "late".data, "mid".data]

/-- Search, after an opening parenthesis, for a temporal keyword followed
somewhere later by a closing parenthesis. -/
def afterParenKw : List Char → Bool
  | [] => false
  | c :: rest =>
    (temporalKws.any (fun kw =>
      List.isPrefixOf kw (lowerL (c :: rest)) ∧ ')' ∈ (c :: rest).drop kw.length))
    || afterParenKw rest

/-- One line of the search \(.*(?:early|later|late|mid).*\) with
re.IGNORECASE (the dot does not cross newlines). -/
def lineHasTemporal : List Char → Bool
  | [] => false
  | '(' :: rest => afterParenKw rest || lineHasTemporal rest
  | _ :: rest => lineHasTemporal rest

def hasTemporalParen (l : List Char) : Bool :=
  (splitChar '\n' l).any lineHasTemporal

/-- Lines 131-149: per-item processing inside the list-template branch. -/
def processListItem (item0 : List Char) : List (List Char) :=
  let it1 := pyStrip item0
  if it1 = [] then []
  else
    let it2 := scanRw tryWikiGS it1.length it1
    let it3 := scanRw tryNowrap it2.length it2
    let it4 :=
      if '(' ∈ it3 then
        if hasTemporalParen it3 then it3 else removeParens it3
      else it3
    let it5 := pyStrip it4
    if ¬ it5 = [] ∧ ¬ List.isPrefixOf cmtOpenTok it5 then [it5] else []

/-- Lines 98-149: the list-template branch producing raw items. -/
def listTemplateItems (l : List Char) : List (List Char) :=
  match findListTplStart l with
  | none => []
  | some tt =>
    let ep := braceEndPos tt
    if 0 < ep then
      let content := stripTrailBr (stripLeadTpl (tt.take ep))
      let items :=
        if '*' ∈ content then splitStars content else splitChar '|' content
      (items.map processListItem).flatten
    else []

def fallbackDelims : List Char := [',', ';', '/', '\n', '•', '·', '|']

/-- Lines 158-169: per-piece processing of the plain/delimited branch. -/
def processFallbackPiece (g0 : List Char) : List (List Char) :=
  let g1 := pyStrip g0
  let g2 := if hasSub ("[[".data) g1 then scanRw tryWikiGS g1.length g1 else g1
  if g2 = [] ∨ List.isPrefixOf ("\x7b\x7b".data) g2 ∨
     List.isPrefixOf cmtOpenTok g2 ∨ List.isPrefixOf refTok g2
  then [] else [g2]

/-- Lines 151-169: the plain/delimited fallback branch producing raw items. -/
def fallbackItems (l : List Char) : List (List Char) :=
  let l1 := scanRw tryBrTag l.length l
  ((splitOnP (fun c => c ∈ fallbackDelims) l1 []).map processFallbackPiece).flatten

def skipTerms : List (List Char) :=
  ["music".data, "band".data, "group".data, "".data, "cite web".data,
   "cite book".data, "first".data, "last".data, "url".data, "title".data,
   "ref".data, "name".data, "am".data, "allmusic".data, "www".data,
   "com".data, "http".data, "https".data, "ref name".data, "work".data,
   "date".data, "publisher".data, "website".data, "access-date".data,
   "archive-date".data, "archive-url".data, "page".data, "isbn".data,
   "year".data, "citation".data, "url-status".data, "live".data,
   "rock music".data, "rock".data]

/-- Line 176 and normalization: star removal, strip, normalize_genre. -/
def normOf (g : List Char) : List Char :=
  normList (pyStrip (g.filter (fun c => ¬ c = '*')))

/-- Lines 190-193: the acceptance test on a normalized label. -/
def genreOk (n : List Char) : Bool :=
  ¬ n = [] ∧ 1 < n.length ∧ ¬ n ∈ skipTerms ∧
  hasSub ("ref".data) n = false ∧ hasSub ("cite".data) n = false ∧ ¬ '.' ∈ n

/-- One iteration of the final normalization loop (lines 173-195). -/
def normStep (acc : List (List Char)) (g : List Char) : List (List Char) :=
  let n := normOf g
  if genreOk n ∧ ¬ n ∈ acc then acc ++ [n] else acc

def normFold (gs : List (List Char)) : List (List Char) := gs.foldl normStep []

/-- Lines 82-95: the rewrites applied to the field text ahead of branch
dispatch (comments, references, leading template prefix, trailing braces,
nowrap). -/
def preprocessTail (l : List Char) : List Char :=
  let l1 := scanRw tryRefPaired l.length l
  let l2 := scanRw tryRefSelf l1.length l1
  let l3 := stripTrailBr (stripLeadTpl l2)
  scanRw tryNowrap l3.length l3

def preprocessField (l : List Char) : List Char := preprocessTail (removeComments l)

/-- The raw labels extracted by whichever branch the dispatch selects. -/
def rawCandidates (l : List Char) : List (List Char) :=
  let t := preprocessField l
  if hasListTpl t then listTemplateItems t else fallbackItems t

def parseGenreList (l : List Char) : List (List Char) := normFold (rawCandidates l)

/-- genre_script.parse_genre_field. -/
def parse_genre_field (s : String) : List String :=
  (parseGenreList s.data).map (fun g => (⟨g⟩ : String))

/-! ## extract_genres_from_infobox (genre_script.py lines 199-263) -/

/-- re.search for \{\{Infobox[^{]* with re.IGNORECASE and re.DOTALL: the
suffix of the document from the match start. -/
def findInfoboxStart : List Char → Option (List Char)
  | [] => none
  | c :: rest =>
    if startsWithCI ("\x7b\x7binfobox".data) (c :: rest) then some (c :: rest)
    else findInfoboxStart rest

/-- Lines 215-227: the brace-counting scan delimiting the infobox; the
whole remaining text when the depth never returns to zero. -/
def infoboxSlice (tfs : List Char) : List Char :=
  tfs.take ((delimScan '\x7b' '\x7d' tfs 0 0).getD tfs.length)

/-- The field-start test and rewrite of lines 239-242: a line matching
\s*\|\s*genres?\s*= yields the content after the equals sign. -/
def genreFieldContent (line : List Char) : Option (List Char) :=
  match line.dropWhile isPySpace with
  | '|' :: r1 =>
    let r2 := r1.dropWhile isPySpace
    if startsWithCI ("genre".data) r2 then
      let r3 := r2.drop 5
      let r4 := match r3 with
        | 's' :: t => t
        | 'S' :: t => t
        | _ => r3
      match r4.dropWhile isPySpace with
      | '=' :: r6 => some (r6.dropWhile isPySpace)
      | _ => none
    else none
  | _ => none

/-- Net brace count of a line (count of opening minus closing braces). -/
def braceDelta (l : List Char) : Int :=
  (l.count '\x7b' : Int) - (l.count '\x7d' : Int)

/-- State of the field-capture loop of lines 233-253. -/
structure LocSt where
  inField : Bool
  depth : Int
  acc : List (List Char)
  stopped : Bool
deriving DecidableEq

/-- One loop iteration of lines 237-253 (the break is a stop flag). -/
def locStep (st : LocSt) (line : List Char) : LocSt :=
  if st.stopped then st
  else
    match genreFieldContent line with
    | some content => ⟨true, braceDelta content, st.acc ++ [content], false⟩
    | none =>
      if st.inField then
        if List.isPrefixOf ['|'] (pyStrip line) ∧ st.depth = 0 then
          ⟨st.inField, st.depth, st.acc, true⟩
        else ⟨true, st.depth + braceDelta line, st.acc ++ [line], false⟩
      else st

/-- The genre_content list accumulated by the loop. -/
def locateGenre (lines : List (List Char)) : List (List Char) :=
  (lines.foldl locStep ⟨false, 0, [], false⟩).acc

/-- The genre_content a document yields (empty when there is no infobox or
no genre field). -/
def genreContentOf (text : List Char) : List (List Char) :=
  match findInfoboxStart text with
  | none => []
  | some tfs => locateGenre (splitChar '\n' (infoboxSlice tfs))

/-- genre_script.extract_genres_from_infobox. -/
def extract_genres_from_infobox (text : String) : Option (List String) :=
  match findInfoboxStart text.data with
  | none => none
  | some tfs =>
    let gc := locateGenre (splitChar '\n' (infoboxSlice tfs))
    if gc = [] then none
    else
      let gs := parseGenreList (joinSep '\n' gc)
      if gs = [] then none else some (gs.map (fun g => (⟨g⟩ : String)))

/-! ## extract_artist_name_from_filename (lines 265-278) -/

/-- os.path.splitext for a bare file name: split at the last dot unless
every character before it is a dot. -/
def splitextBase (l : List Char) : List Char :=
  match l.reverse.findIdx? (fun c => c = '.') with
  | none => l
  | some j =>
    let i := l.length - 1 - j
    if (l.take i).all (fun c => c = '.') then l else l.take i

/-- Whether the suffix starting here matches \([^)]*\)\s*$ . -/
def parenSufHere (l : List Char) : Bool :=
  match l with
  | '(' :: rest =>
    let t := rest.takeWhile (fun c => ¬ c = ')')
    match rest.drop t.length with
    | ')' :: tail => tail.all isPySpace
    | _ => false
  | _ => false

/-- Index of the opening parenthesis of a trailing parenthetical, if any. -/
def findParenSuf : List Char → Option Nat
  | [] => none
  | c :: rest =>
    if parenSufHere (c :: rest) then some 0
    else (findParenSuf rest).map (fun n => n + 1)

/-- genre_script.extract_artist_name_from_filename. -/
def extract_artist_name_from_filename (fn : String) : String :=
  let l1 := splitextBase fn.data
  let l2 := l1.map (fun c => if c = '_' then ' ' else c)
  let l3 := match findParenSuf l2 with
    | none => l2
    | some p => ((l2.take p).reverse.dropWhile isPySpace).reverse
  ⟨pyStrip l3⟩

/-! ## process_wiki_files (lines 301-319, the pure accumulation step;
directory traversal, io and console reporting are outside the model) -/

def processStep (acc : List (String × List String)) (fc : String × String) :
    List (String × List String) :=
  match extract_genres_from_infobox fc.2 with
  | some gs => acc ++ [(extract_artist_name_from_filename fc.1, gs)]
  | none => acc

def process_wiki_files (files : List (String × String)) : List (String × List String) :=
  files.foldl processStep []

/-! ## rock_network.extract_wiki_links (rock_network.py lines 28-42) -/

/-- Matcher for one match of \[\[([^\[\]|]+?)(?:\|[^\[\]]+)?\]\] ; returns
the captured target and the remainder after the match. -/
def tryWikiRN (l : List Char) : Option (List Char × List Char) :=
  if l.take 2 = ['[', '['] then
    let rest := l.drop 2
    let t := rest.takeWhile (fun c => ¬ (c = '[' ∨ c = ']' ∨ c = '|'))
    if t = [] then none
    else
      match rest.drop t.length with
      | ']' :: ']' :: rem => some (t, rem)
      | '|' :: r2 =>
        let d := r2.takeWhile (fun c => ¬ (c = '[' ∨ c = ']'))
        if d = [] then none
        else
          match r2.drop d.length with
          | ']' :: ']' :: rem => some (t, rem)
          | _ => none
      | _ => none
  else none

/-- re.findall over the text: captured targets in order of appearance. -/
def findallGo : Nat → List Char → List (List Char)
  | 0, _ => []
  | _ + 1, [] => []
  | f + 1, c :: rest =>
    match tryWikiRN (c :: rest) with
    | some (t, rem) => t :: findallGo f rem
    | none => findallGo f rest

def wikiLinkMatches (l : List Char) : List (List Char) := findallGo l.length l

/-- Lines 37-38: truncate at the first hash and strip. -/
def cleanLink (m : List Char) : List Char :=
  pyStrip (m.takeWhile (fun c => ¬ c = '#'))

/-- rock_network.extract_wiki_links. -/
def extract_wiki_links (s : String) : List String :=
  ((wikiLinkMatches s.data).foldl
    (fun acc m =>
      let link := cleanLink m
      if ¬ link = [] then acc ++ [link] else acc) []).map (fun g => (⟨g⟩ : String))

/-! ## rock_network.clean_network (rock_network.py lines 112-128)

networkx graphs are mutable Python objects; clean_network mutates its
argument and returns a fresh copy.  The heap is modelled as a store
(a list of graph values), a graph object as an index into the store, and
clean_network as a store transformer returning the new store and the
index of the freshly allocated result graph.  none models the ValueError
raised by max() on an empty component sequence. -/

structure DiGraph where
  nodes : List Nat
  edges : List (Nat × Nat)
deriving DecidableEq

/-- nx.isolates: nodes with no incident edge in either direction. -/
def isIsolated (G : DiGraph) (v : Nat) : Bool :=
  ¬ G.edges.any (fun e => e.1 = v ∨ e.2 = v)

def isolatesOf (G : DiGraph) : List Nat := G.nodes.filter (isIsolated G)

/-- G.remove_nodes_from: drop the nodes and any incident edges. -/
def removeNodes (G : DiGraph) (vs : List Nat) : DiGraph :=
  ⟨G.nodes.filter (fun v => ¬ v ∈ vs),
   G.edges.filter (fun e => ¬ e.1 ∈ vs ∧ ¬ e.2 ∈ vs)⟩

/-- Adjacency with edge direction ignored. -/
def adjU (G : DiGraph) (u v : Nat) : Bool :=
  G.edges.any (fun e => (e.1 = u ∧ e.2 = v) ∨ (e.1 = v ∧ e.2 = u))

/-- One breadth step of the undirected closure. -/
def expandComp (G : DiGraph) (s : List Nat) : List Nat :=
  s ++ G.nodes.filter (fun v => ¬ v ∈ s ∧ s.any (fun u => adjU G u v))

/-- The weakly-connected component containing v. -/
def compOf (G : DiGraph) (v : Nat) : List Nat :=
  (expandComp G)^[G.nodes.length] [v]

def wccGo (G : DiGraph) : List Nat → List Nat → List (List Nat)
  | [], _ => []
  | v :: vs, seen =>
    if v ∈ seen then wccGo G vs seen
    else compOf G v :: wccGo G vs (seen ++ compOf G v)

/-- nx.weakly_connected_components in node-insertion order. -/
def wccs (G : DiGraph) : List (List Nat) := wccGo G G.nodes []

/-- Python max(components, key=len): the first component of maximal size;
none on an empty sequence (the ValueError case). -/
def largestOf (cs : List (List Nat)) : Option (List Nat) :=
  match cs with
  | [] => none
  | c :: rest =>
    some (rest.foldl (fun best x => if best.length < x.length then x else best) c)

/-- G.subgraph(component).copy(). -/
def inducedSub (G : DiGraph) (vs : List Nat) : DiGraph :=
  ⟨G.nodes.filter (fun v => v ∈ vs),
   G.edges.filter (fun e => e.1 ∈ vs ∧ e.2 ∈ vs)⟩

abbrev GStore := List DiGraph

/-- rock_network.clean_network as a store transformer: the argument graph
is updated in place at its reference r, the returned graph is a fresh
allocation at index s.length. -/
def clean_network (s : GStore) (r : Nat) : Option (GStore × Nat) :=
  match s[r]? with
  | none => none
  | some G =>
    let G1 := removeNodes G (isolatesOf G)
    match largestOf (wccs G1) with
    | none => none
    | some comp => some ((s.set r G1) ++ [inducedSub G1 comp], s.length)

/-! ## Spec-side definitions, written from the claims' own wording, to be
compared with the code-derived definitions above. -/

/-- Claim C4's capture loop as literally worded: a subsequent line is
appended (accumulating its brace delta) unless it begins with a pipe while
the depth counter is exactly zero. -/
def captureLit : List (List Char) → Int → List (List Char)
  | [], _ => []
  | ln :: rest, d =>
    if List.isPrefixOf ['|'] ln ∧ d = 0 then []
    else ln :: captureLit rest (d + braceDelta ln)

/-- Claim C4 as literally worded: capture starts at the genre field line
and then follows captureLit. -/
def locateGenreLit : List (List Char) → List (List Char)
  | [] => []
  | ln :: rest =>
    match genreFieldContent ln with
    | some c => c :: captureLit rest (braceDelta c)
    | none => locateGenreLit rest

/-- The amended capture loop: a line matching the genre-field-start
pattern restarts capture with its post-equals content and resets the depth
counter; otherwise a line whose whitespace-stripped form begins with a
pipe while the depth counter is exactly zero ends capture; otherwise the
line is appended and its brace delta accumulates. -/
def captureSpec : List (List Char) → Int → List (List Char)
  | [], _ => []
  | ln :: rest, d =>
    match genreFieldContent ln with
    | some c => c :: captureSpec rest (braceDelta c)
    | none =>
      if List.isPrefixOf ['|'] (pyStrip ln) ∧ d = 0 then []
      else ln :: captureSpec rest (d + braceDelta ln)

/-- The amended field locator: scan for the first genre-field line, then
capture per captureSpec. -/
def locateGenreSpec : List (List Char) → List (List Char)
  | [] => []
  | ln :: rest =>
    match genreFieldContent ln with
    | some c => c :: captureSpec rest (braceDelta c)
    | none => locateGenreSpec rest

/-- Claim C2's list-template branch, worded from the claim: locate the
template's balanced span by per-character brace-depth counting, strip the
template-name prefix and the trailing braces, split on runs of stars if
any star is present and otherwise on pipes, and process each item
(wiki-link resolution, nowrap unwrapping, the temporal-qualifier
parenthetical rule, comment-marker discard). -/
def listBranchPerClaim (t : List Char) : List (List Char) :=
  match findListTplStart t with
  | none => []
  | some tt =>
    match delimScan '\x7b' '\x7d' tt 0 0 with
    | none => []
    | some ep =>
      let content := stripTrailBr (stripLeadTpl (tt.take ep))
      let items :=
        if '*' ∈ content then splitStars content else splitChar '|' content
      (items.map processListItem).flatten

/-- Index of the first occurrence of x (list length when absent). -/
def firstIdx (x : List Char) : List (List Char) → Nat
  | [] => 0
  | y :: rest => if y = x then 0 else firstIdx x rest + 1

/-- Keep-first deduplication: a value is kept only at its first
occurrence, in position order; seen collects the values already kept. -/
def dkfGo : List (List Char) → List (List Char) → List (List Char)
  | [], _ => []
  | x :: rest, seen =>
    if x ∈ seen then dkfGo rest seen else x :: dkfGo rest (seen ++ [x])

/-- The deduplication the claim words as preserving the position of each
entry's first occurrence. -/
def dedupKeepFirst (l : List (List Char)) : List (List Char) := dkfGo l []

/-- The normal-form predicate under which normalize_genre is the identity:
no uppercase ASCII letter, no bracket, brace or quote character, already
whitespace-stable, none of the substrings that the reference, comment and
url passes rewrite, and not one of the rock-and-roll variant spellings. -/
def cleanP (l : List Char) : Prop :=
  (∀ c ∈ l, ¬ isUpperA c ∧ ¬ c ∈ bracketChars ∧ ¬ c ∈ braceQuoteChars) ∧
  pyStrip l = l ∧ collapseWs l = l ∧
  hasSub refTok l = false ∧ hasSub cmtOpenTok l = false ∧
  hasSub ("http://".data) l = false ∧ hasSub ("https://".data) l = false ∧
  hasSub ("www.".data) l = false ∧
  ¬ l ∈ rockVariants.map (fun vp => vp.1)

instance (l : List Char) : Decidable (cleanP l) := by
  unfold cleanP
  infer_instance

/-! ## Theorems -/

theorem scanRw_id (tryF : List Char → Option (List Char × List Char)) :
    ∀ (f : Nat) (l : List Char), (∀ s : List Char, s <:+ l → tryF s = none) →
      scanRw tryF f l = l := by
  intro f
  induction f with
  | zero => intro l _; rfl
  | succ f ih =>
    intro l h
    cases l with
    | nil => rfl
    | cons c rest =>
      have h0 : tryF (c :: rest) = none := h _ (List.suffix_refl _)
      simp only [scanRw, h0]
      rw [ih rest]
      intro s hs
      exact h s (hs.trans (List.suffix_cons c rest))

theorem scanRw_chars (tryF : List Char → Option (List Char × List Char))
    (hTry : ∀ s e r, tryF s = some (e, r) →
      (∀ a, a ∈ e → a ∈ s) ∧ (∀ a, a ∈ r → a ∈ s)) :
    ∀ (f : Nat) (l : List Char) (a : Char), a ∈ scanRw tryF f l → a ∈ l := by
  intro f
  induction f with
  | zero => intro l a ha; exact ha
  | succ f ih =>
    intro l a ha
    cases l with
    | nil => simp [scanRw] at ha
    | cons c rest =>
      rcases h0 : tryF (c :: rest) with _ | ⟨e, rem⟩
      · rw [scanRw, h0] at ha
        rcases List.mem_cons.1 ha with h | h
        · exact h ▸ List.mem_cons_self c rest
        · exact List.mem_cons_of_mem c (ih rest a h)
      · rw [scanRw, h0] at ha
        rcases List.mem_append.1 ha with h | h
        · exact (hTry _ _ _ h0).1 a h
        · exact (hTry _ _ _ h0).2 a (ih rem a h)

theorem dropAfterSub_length {pat : List Char} (hp : pat ≠ []) :
    ∀ (l r : List Char), dropAfterSub pat l = some r → r.length < l.length := by
  intro l
  induction l with
  | nil => intro r h; simp [dropAfterSub] at h
  | cons c rest ih =>
    intro r h
    rw [dropAfterSub] at h
    by_cases hpre : List.isPrefixOf pat (c :: rest)
    · rw [if_pos hpre] at h
      have : r = (c :: rest).drop pat.length := (Option.some_inj.1 h).symm
      subst this
      have h1 : 1 ≤ pat.length := by
        cases pat with
        | nil => exact absurd rfl hp
        | cons p ps => simp
      rw [List.length_drop]
      simp only [List.length_cons]
      omega
    · rw [if_neg hpre] at h
      exact Nat.lt_trans (ih r h) (by simp)

theorem dropAfterSub_mem {pat : List Char} :
    ∀ (l r : List Char), dropAfterSub pat l = some r → ∀ a, a ∈ r → a ∈ l := by
  intro l
  induction l with
  | nil => intro r h; simp [dropAfterSub] at h
  | cons c rest ih =>
    intro r h a ha
    rw [dropAfterSub] at h
    by_cases hpre : List.isPrefixOf pat (c :: rest)
    · rw [if_pos hpre] at h
      have : r = (c :: rest).drop pat.length := (Option.some_inj.1 h).symm
      subst this
      exact (List.drop_sublist _ _).mem ha
    · rw [if_neg hpre] at h
      exact List.mem_cons_of_mem c (ih r h a ha)

theorem hasSub_of_pref_suffix (pat : List Char) :
    ∀ (l s : List Char), s <:+ l → List.isPrefixOf pat s = true → hasSub pat l = true := by
  intro l
  induction l with
  | nil =>
    intro s hs hp
    have : s = [] := List.eq_nil_of_suffix_nil hs
    subst this
    cases pat with
    | nil => simp [hasSub]
    | cons p ps => simp [List.isPrefixOf] at hp
  | cons c rest ih =>
    intro s hs hp
    rcases List.suffix_cons_iff.1 hs with h | h
    · subst h
      simp [hasSub, hp]
    · simp [hasSub, ih s h hp]

theorem pref_suffix_of_hasSub_false {pat : List Char} {l s : List Char}
    (h : hasSub pat l = false) (hs : s <:+ l) : List.isPrefixOf pat s = false := by
  by_contra hcon
  have := hasSub_of_pref_suffix pat l s hs (by
    cases hpre : List.isPrefixOf pat s
    · exact absurd hpre hcon
    · rfl)
  rw [this] at h
  simp at h


/-- The end-to-end document of claim C1. -/
def clashDoc : String :=
  "\x7b\x7bInfobox musical artist\n| genre = \x7b\x7bflatlist|\n* [[Punk rock]]\n* Rock and roll\n\x7d\x7d\n| born = 1970\n\x7d\x7d"

/-- Claim C1: for the Infobox document read from The_Clash.txt, the
pipeline yields artist key The Clash mapped to exactly the list
[punk rock, rock and roll] in that order. -/
theorem claim1_end_to_end :
    extract_artist_name_from_filename "The_Clash.txt" = "The Clash" ∧
    extract_genres_from_infobox clashDoc = some ["punk rock", "rock and roll"] ∧
    process_wiki_files [("The_Clash.txt", clashDoc)] =
      [("The Clash", ["punk rock", "rock and roll"])] :=
  ⟨by decide, by decide, by decide⟩

/-- Claim C6: when the depth counter never returns to zero, both
extract_nested_content and the inline infobox brace scan return the text
through end-of-input rather than failing (totality of the Lean functions
models the absence of exceptions). -/
theorem claim6_unbalanced_degrade :
    (∀ (t : String) (o c : Char),
      delimScan o c (t.data.dropWhile (fun ch => ¬ ch = o)) 0 0 = none →
      extract_nested_content t o c = t) ∧
    (∀ l : List Char, delimScan '\x7b' '\x7d' l 0 0 = none → infoboxSlice l = l) := by
  constructor
  · intro t o c h
    simp only [extract_nested_content, h]
    split_ifs <;> rfl
  · intro l h
    unfold infoboxSlice
    rw [h]
    exact List.take_length l

/-- Witness for claim C6 at a concrete unbalanced text. -/
theorem claim6_unbalanced_degrade_witness :
    delimScan '\x7b' '\x7d' ("x\x7bab".data.dropWhile (fun ch => ¬ ch = '\x7b')) 0 0 = none ∧
    extract_nested_content "x\x7bab" '\x7b' '\x7d' = "x\x7bab" ∧
    delimScan '\x7b' '\x7d' ("\x7b\x7bIa".data) 0 0 = none ∧
    infoboxSlice ("\x7b\x7bIa".data) = "\x7b\x7bIa".data :=
  ⟨by decide, claim6_unbalanced_degrade.1 _ _ _ (by decide), by decide,
   claim6_unbalanced_degrade.2 _ (by decide)⟩

theorem foldl_keep_nonempty (f : List Char → List Char) :
    ∀ (ms acc : List (List Char)),
      ms.foldl (fun acc m =>
        let link := f m
        if ¬ link = [] then acc ++ [link] else acc) acc
        = acc ++ ((ms.map f).filter (fun g => ¬ g = [])) := by
  intro ms
  induction ms with
  | nil => intro acc; simp
  | cons m rest ih =>
    intro acc
    rw [List.foldl_cons, List.map_cons]
    by_cases h : f m = []
    · rw [List.filter_cons_of_neg (by simpa using h)]
      have step : (let link := f m
          if ¬ link = [] then acc ++ [link] else acc) = acc := by
        simp [h]
      rw [step, ih]
    · rw [List.filter_cons_of_pos (by simpa using h)]
      have step : (let link := f m
          if ¬ link = [] then acc ++ [link] else acc) = acc ++ [f m] := by
        simp [h]
      rw [step, ih]
      simp

/-- Claim C10: extract_wiki_links returns, in order of appearance, the
link targets (the part before a pipe), truncated at the first hash and
stripped, with empty results omitted, and never yields the empty string. -/
theorem claim10_extract_wiki_links (t : String) :
    extract_wiki_links t =
      (((wikiLinkMatches t.data).map cleanLink).filter (fun g => ¬ g = [])).map
        (fun g => (⟨g⟩ : String)) ∧
    ∀ l ∈ extract_wiki_links t, l ≠ "" := by
  have heq : extract_wiki_links t =
      (((wikiLinkMatches t.data).map cleanLink).filter (fun g => ¬ g = [])).map
        (fun g => (⟨g⟩ : String)) := by
    unfold extract_wiki_links
    rw [foldl_keep_nonempty cleanLink (wikiLinkMatches t.data) []]
    simp
  refine ⟨heq, ?_⟩
  intro l hl
  rw [heq] at hl
  rcases List.mem_map.1 hl with ⟨g, hg, rfl⟩
  have hne : ¬ g = [] := by
    have := (List.mem_filter.1 hg).2
    simpa using this
  intro hcon
  apply hne
  have : (⟨g⟩ : String).data = ("" : String).data := by rw [hcon]
  simpa using this

/-- Witness for claim C10 on a concrete text with a display pipe, a hash
anchor and a whitespace-only target. -/
theorem claim10_extract_wiki_links_witness :
    "Ramones" ∈ extract_wiki_links "x [[Ramones#H|the band]] y [[ ]]" ∧
    ("Ramones" : String) ≠ "" :=
  ⟨by decide,
   (claim10_extract_wiki_links "x [[Ramones#H|the band]] y [[ ]]").2 "Ramones" (by decide)⟩

/-- extract_genres_from_infobox characterized through genreContentOf. -/
theorem extract_eq (t : String) :
    extract_genres_from_infobox t =
      (if genreContentOf t.data = [] then none
       else if parseGenreList (joinSep '\n' (genreContentOf t.data)) = [] then none
       else some ((parseGenreList (joinSep '\n' (genreContentOf t.data))).map
         (fun g => (⟨g⟩ : String)))) := by
  unfold extract_genres_from_infobox genreContentOf
  rcases hf : findInfoboxStart t.data with _ | tfs
  · rfl
  · rfl

theorem locate_nil (lines : List (List Char))
    (h : ∀ ln ∈ lines, genreFieldContent ln = none) : locateGenre lines = [] := by
  have key : ∀ ls : List (List Char), (∀ ln ∈ ls, genreFieldContent ln = none) →
      ls.foldl locStep ⟨false, 0, [], false⟩ = ⟨false, 0, [], false⟩ := by
    intro ls
    induction ls with
    | nil => intro _; rfl
    | cons ln rest ih =>
      intro hh
      rw [List.foldl_cons]
      have h1 : locStep ⟨false, 0, [], false⟩ ln = ⟨false, 0, [], false⟩ := by
        unfold locStep
        simp [hh ln (List.mem_cons_self _ _)]
      rw [h1]
      exact ih (fun l hl => hh l (List.mem_cons_of_mem _ hl))
  unfold locateGenre
  rw [key lines h]

/-- Claim C8: a document with no located genre content, and likewise one
whose parsed genre list is empty, yields none (never some of an empty
list), and the accumulation step inserts no key for such a document. -/
theorem claim8_absent_key :
    (∀ lines : List (List Char), (∀ ln ∈ lines, genreFieldContent ln = none) →
        locateGenre lines = []) ∧
    (∀ (t : String) (gs : List String),
        extract_genres_from_infobox t = some gs → gs ≠ []) ∧
    (∀ t : String, genreContentOf t.data = [] →
        extract_genres_from_infobox t = none) ∧
    (∀ t : String,
        parseGenreList (joinSep '\n' (genreContentOf t.data)) = [] →
        extract_genres_from_infobox t = none) ∧
    (∀ (acc : List (String × List String)) (fc : String × String),
        extract_genres_from_infobox fc.2 = none → processStep acc fc = acc) := by
  refine ⟨?_, ?_, ?_, ?_, ?_⟩
  · exact locate_nil
  · intro t gs h
    rw [extract_eq] at h
    by_cases h1 : genreContentOf t.data = []
    · rw [if_pos h1] at h; exact absurd h (by simp)
    · rw [if_neg h1] at h
      by_cases h2 : parseGenreList (joinSep '\n' (genreContentOf t.data)) = []
      · rw [if_pos h2] at h; exact absurd h (by simp)
      · rw [if_neg h2] at h
        have := Option.some_inj.1 h
        intro hcon
        rw [hcon] at this
        exact h2 (List.map_eq_nil_iff.1 this)
  · intro t h
    rw [extract_eq, if_pos h]
  · intro t h
    rw [extract_eq]
    by_cases h1 : genreContentOf t.data = []
    · rw [if_pos h1]
    · rw [if_neg h1, if_pos h]
  · intro acc fc h
    unfold processStep
    rw [h]

/-- The missing-field document of claim C8. -/
def noGenreDoc : String := "\x7b\x7bInfobox m\n| born = 1970\n\x7d\x7d"

/-- Witness for claim C8 at a document whose infobox has no genre field. -/
theorem claim8_absent_key_witness :
    genreContentOf noGenreDoc.data = [] ∧
    extract_genres_from_infobox noGenreDoc = none ∧
    processStep [] ("X.txt", noGenreDoc) = [] :=
  ⟨by decide, claim8_absent_key.2.2.1 noGenreDoc (by decide),
   claim8_absent_key.2.2.2.2 [] ("X.txt", noGenreDoc)
     (claim8_absent_key.2.2.1 noGenreDoc (by decide))⟩

theorem captureSpec_cons (ln : List Char) (rest : List (List Char)) (d : Int) :
    captureSpec (ln :: rest) d =
      match genreFieldContent ln with
      | some c => c :: captureSpec rest (braceDelta c)
      | none =>
        if List.isPrefixOf ['|'] (pyStrip ln) ∧ d = 0 then []
        else ln :: captureSpec rest (d + braceDelta ln) := rfl

theorem locateGenreSpec_cons (ln : List Char) (rest : List (List Char)) :
    locateGenreSpec (ln :: rest) =
      match genreFieldContent ln with
      | some c => c :: captureSpec rest (braceDelta c)
      | none => locateGenreSpec rest := rfl

theorem locStep_going (d : Int) (acc : List (List Char)) (ln : List Char) :
    locStep ⟨true, d, acc, false⟩ ln =
      match genreFieldContent ln with
      | some c => ⟨true, braceDelta c, acc ++ [c], false⟩
      | none =>
        if List.isPrefixOf ['|'] (pyStrip ln) ∧ d = 0 then ⟨true, d, acc, true⟩
        else ⟨true, d + braceDelta ln, acc ++ [ln], false⟩ := by
  unfold locStep
  simp only [if_neg Bool.false_ne_true]
  rfl

theorem locStep_start (ln : List Char) :
    locStep ⟨false, 0, [], false⟩ ln =
      match genreFieldContent ln with
      | some c => ⟨true, braceDelta c, [c], false⟩
      | none => ⟨false, 0, [], false⟩ := by
  unfold locStep
  simp only [if_neg Bool.false_ne_true]
  rcases genreFieldContent ln with _ | c
  · simp
  · rfl

theorem foldl_locStep_stopped :
    ∀ (lines : List (List Char)) (i : Bool) (d : Int) (acc : List (List Char)),
      lines.foldl locStep ⟨i, d, acc, true⟩ = ⟨i, d, acc, true⟩ := by
  intro lines
  induction lines with
  | nil => intro i d acc; rfl
  | cons ln rest ih =>
    intro i d acc
    rw [List.foldl_cons]
    have h1 : locStep ⟨i, d, acc, true⟩ ln = ⟨i, d, acc, true⟩ := by
      unfold locStep
      simp
    rw [h1]
    exact ih i d acc

theorem foldl_locStep_capture :
    ∀ (lines : List (List Char)) (d : Int) (acc : List (List Char)),
      (lines.foldl locStep ⟨true, d, acc, false⟩).acc = acc ++ captureSpec lines d := by
  intro lines
  induction lines with
  | nil => intro d acc; simp [captureSpec]
  | cons ln rest ih =>
    intro d acc
    rcases hg : genreFieldContent ln with _ | c
    · by_cases hp : List.isPrefixOf ['|'] (pyStrip ln) ∧ d = 0
      · simp only [List.foldl_cons, locStep_going, hg, captureSpec_cons]
        rw [if_pos hp, if_pos hp, foldl_locStep_stopped]
        simp
      · simp only [List.foldl_cons, locStep_going, hg, captureSpec_cons]
        rw [if_neg hp, if_neg hp, ih]
        simp
    · simp only [List.foldl_cons, locStep_going, hg, captureSpec_cons]
      rw [ih]
      simp

theorem locate_eq_spec : ∀ lines : List (List Char),
    locateGenre lines = locateGenreSpec lines := by
  intro lines
  unfold locateGenre
  induction lines with
  | nil => rfl
  | cons ln rest ih =>
    rcases hg : genreFieldContent ln with _ | c
    · simp only [List.foldl_cons, locStep_start, hg, locateGenreSpec_cons]
      exact ih
    · simp only [List.foldl_cons, locStep_start, hg, locateGenreSpec_cons]
      rw [foldl_locStep_capture]
      simp

/-- Counterexample to claim C4 as stated: the code strips whitespace from
a line before testing for the pipe, so a line beginning with spaces ahead
of the pipe ends capture although it does not begin with a pipe; the
claim-literal locator keeps it. -/
theorem claim4_boundary_cex :
    locateGenre ["| genre = a".data, "  | born = b".data] = ["a".data] ∧
    locateGenreLit ["| genre = a".data, "  | born = b".data] =
      ["a".data, "  | born = b".data] ∧
    ¬ locateGenre ["| genre = a".data, "  | born = b".data] =
      locateGenreLit ["| genre = a".data, "  | born = b".data] :=
  ⟨by decide, by decide, by decide⟩

/-- Claim C4 (amended): the located genre block is exactly described by
the declarative capture: lines matching the genre-field-start pattern
(re)start capture with their post-equals content and reset the depth;
otherwise a line whose whitespace-stripped form begins with a pipe at
depth zero ends capture and is excluded; otherwise the line is appended
with its brace delta accumulated.  In particular a genre field followed
by a born field captures only the genre value, and a multi-line brace
value is not truncated at an embedded pipe. -/
theorem claim4_field_boundary_amended :
    (∀ lines : List (List Char), locateGenre lines = locateGenreSpec lines) ∧
    genreContentOf "\x7b\x7bInfobox m\n| genre = a\n| born = b\n\x7d\x7d".data = ["a".data] ∧
    locateGenre ["| genre = \x7b\x7bx".data, "| y".data, "\x7d\x7d".data] =
      ["\x7b\x7bx".data, "| y".data, "\x7d\x7d".data] :=
  ⟨locate_eq_spec, by decide, by decide⟩

theorem delimScan_pos (o c : Char) :
    ∀ (l : List Char) (d : Int) (i n : Nat),
      delimScan o c l d i = some n → i < n := by
  intro l
  induction l with
  | nil => intro d i n h; simp [delimScan] at h
  | cons ch rest ih =>
    intro d i n h
    unfold delimScan at h
    by_cases h1 : ch = o
    · rw [if_pos h1] at h
      have := ih _ _ _ h
      omega
    · rw [if_neg h1] at h
      by_cases h2 : ch = c
      · rw [if_pos h2] at h
        by_cases h3 : d - 1 = 0
        · rw [if_pos h3] at h
          have : n = i + 1 := (Option.some_inj.1 h).symm
          omega
        · rw [if_neg h3] at h
          have := ih _ _ _ h
          omega
      · rw [if_neg h2] at h
        have := ih _ _ _ h
        omega

theorem listItems_eq_claim (t : List Char) :
    listTemplateItems t = listBranchPerClaim t := by
  unfold listTemplateItems listBranchPerClaim braceEndPos
  rcases hf : findListTplStart t with _ | tt
  · rfl
  · simp only []
    rcases hd : delimScan '\x7b' '\x7d' tt 0 0 with _ | n
    · simp [hd]
    · have hpos : 0 < n := delimScan_pos '\x7b' '\x7d' tt 0 0 n hd
      simp [hd, hpos]

/-- Counterexample to claim C2 as stated: a field text that contains a
list-template name right at its start has the leading template prefix
stripped before the branch test, so the fallback branch runs and the
non-temporal parenthetical survives, where the claimed list branch would
drop it. -/
theorem claim2_list_template_cex :
    parse_genre_field "\x7b\x7bflatlist|* rocking (pop)\x7d\x7d" = ["rocking (pop)"] ∧
    (normFold (listBranchPerClaim ("\x7b\x7bflatlist|* rocking (pop)\x7d\x7d".data))).map
      (fun g => (⟨g⟩ : String)) = ["rocking"] ∧
    ¬ ("rocking (pop)" : String) = "rocking" :=
  ⟨by decide, by decide, by decide⟩

/-- Claim C2 (amended): whenever the field text still contains a
list-template name after the preliminary rewrites (comment and reference
removal, leading template-prefix strip, trailing brace strip, nowrap
unwrapping), parse_genre_field runs exactly the claimed list-template
branch on the rewritten text, followed by the shared normalization. -/
theorem claim2_list_template_amended (s : String)
    (h : hasListTpl (preprocessField s.data) = true) :
    parse_genre_field s =
      (normFold (listBranchPerClaim (preprocessField s.data))).map
        (fun g => (⟨g⟩ : String)) := by
  unfold parse_genre_field parseGenreList rawCandidates
  rw [if_pos h, listItems_eq_claim]

/-- Witness for claim C2 at a field text whose list template is balanced
after the preliminary rewrites. -/
theorem claim2_list_template_amended_witness :
    hasListTpl (preprocessField ("a\x7b\x7bhlist|pop|jazz\x7d\x7d\x7d\x7d".data)) = true ∧
    parse_genre_field "a\x7b\x7bhlist|pop|jazz\x7d\x7d\x7d\x7d" =
      (normFold (listBranchPerClaim
        (preprocessField ("a\x7b\x7bhlist|pop|jazz\x7d\x7d\x7d\x7d".data)))).map
        (fun g => (⟨g⟩ : String)) :=
  ⟨by decide, claim2_list_template_amended "a\x7b\x7bhlist|pop|jazz\x7d\x7d\x7d\x7d" (by decide)⟩

theorem wccs_ne_nil (G : DiGraph) (h : G.nodes ≠ []) : wccs G ≠ [] := by
  unfold wccs
  rcases hn : G.nodes with _ | ⟨v, vs⟩
  · exact absurd hn h
  · simp [wccGo]

/-- Counterexample to claim C9 as stated: on a graph whose only node is
isolated, the in-place isolate removal empties the graph, the component
sequence is empty, and the max call raises (modelled by none) instead of
returning a copied subgraph. -/
theorem claim9_clean_network_cex : clean_network [⟨[0], []⟩] 0 = none := by decide

/-- Claim C9 (amended): clean_network removes the isolated nodes from the
caller's graph in place (the store cell of the argument is updated), then
returns a freshly allocated copy of the subgraph on the largest
weakly-connected component, leaving every other store cell untouched —
provided at least one node survives isolate removal; otherwise the max
over the empty component sequence raises a ValueError. -/
theorem claim9_clean_network_amended (s : GStore) (r : Nat) (G : DiGraph)
    (hG : s[r]? = some G)
    (hne : (removeNodes G (isolatesOf G)).nodes ≠ []) :
    ∃ (s2 : GStore) (comp : List Nat),
      largestOf (wccs (removeNodes G (isolatesOf G))) = some comp ∧
      clean_network s r = some (s2, s.length) ∧
      ¬ r = s.length ∧
      s2[r]? = some (removeNodes G (isolatesOf G)) ∧
      s2[s.length]? = some (inducedSub (removeNodes G (isolatesOf G)) comp) ∧
      (∀ q : Nat, q < s.length → ¬ q = r → s2[q]? = s[q]?) := by
  have hr : r < s.length := by
    rcases List.getElem?_eq_some.1 hG with ⟨h1, _⟩
    exact h1
  have hwne : wccs (removeNodes G (isolatesOf G)) ≠ [] := wccs_ne_nil _ hne
  rcases hLo : largestOf (wccs (removeNodes G (isolatesOf G))) with _ | comp
  · exfalso
    apply hwne
    unfold largestOf at hLo
    rcases hw : wccs (removeNodes G (isolatesOf G)) with _ | ⟨c0, cs⟩
    · rfl
    · rw [hw] at hLo
      simp at hLo
  · refine ⟨(s.set r (removeNodes G (isolatesOf G))) ++
      [inducedSub (removeNodes G (isolatesOf G)) comp], comp, rfl, ?_, ?_, ?_, ?_, ?_⟩
    · simp only [clean_network, hG, hLo]
    · omega
    · rw [List.getElem?_append_left (by simpa using hr)]
      exact List.getElem?_set_self hr
    · have h1 : (s.set r (removeNodes G (isolatesOf G))).length = s.length :=
        List.length_set s r _
      rw [← h1, List.getElem?_concat_length]
    · intro q hq hqr
      rw [List.getElem?_append_left (by simpa using hq)]
      exact List.getElem?_set_ne (fun hx => hqr hx.symm)

/-- Witness for claim C9 at a two-node one-edge graph stored at reference 0. -/
theorem claim9_clean_network_amended_witness :
    (([⟨[5, 7], [(5, 7)]⟩] : GStore)[0]? = some ⟨[5, 7], [(5, 7)]⟩) ∧
    (removeNodes ⟨[5, 7], [(5, 7)]⟩ (isolatesOf ⟨[5, 7], [(5, 7)]⟩)).nodes ≠ [] ∧
    (∃ (s2 : GStore) (comp : List Nat),
      largestOf (wccs (removeNodes ⟨[5, 7], [(5, 7)]⟩
        (isolatesOf ⟨[5, 7], [(5, 7)]⟩))) = some comp ∧
      clean_network [⟨[5, 7], [(5, 7)]⟩] 0 = some (s2, ([⟨[5, 7], [(5, 7)]⟩] : GStore).length) ∧
      ¬ 0 = ([⟨[5, 7], [(5, 7)]⟩] : GStore).length ∧
      s2[0]? = some (removeNodes ⟨[5, 7], [(5, 7)]⟩ (isolatesOf ⟨[5, 7], [(5, 7)]⟩)) ∧
      s2[([⟨[5, 7], [(5, 7)]⟩] : GStore).length]? =
        some (inducedSub (removeNodes ⟨[5, 7], [(5, 7)]⟩ (isolatesOf ⟨[5, 7], [(5, 7)]⟩)) comp) ∧
      (∀ q : Nat, q < ([⟨[5, 7], [(5, 7)]⟩] : GStore).length → ¬ q = 0 →
        s2[q]? = ([⟨[5, 7], [(5, 7)]⟩] : GStore)[q]?)) :=
  ⟨by decide, by decide,
   claim9_clean_network_amended [⟨[5, 7], [(5, 7)]⟩] 0 ⟨[5, 7], [(5, 7)]⟩
     (by decide) (by decide)⟩

theorem scanRw_fuel (tryF : List Char → Option (List Char × List Char))
    (hc : ∀ s e r, tryF s = some (e, r) → r.length < s.length) :
    ∀ (f : Nat) (l : List Char), l.length ≤ f →
      scanRw tryF f l = scanRw tryF l.length l := by
  intro f
  induction f using Nat.strong_induction_on with
  | _ f ih =>
    intro l hl
    cases f with
    | zero =>
      have : l = [] := List.length_eq_zero.1 (Nat.le_zero.1 hl)
      subst this
      rfl
    | succ f =>
      cases l with
      | nil => rfl
      | cons c rest =>
        have hr : rest.length ≤ f := by simpa using hl
        rcases h0 : tryF (c :: rest) with _ | ⟨e, rem⟩
        · simp only [List.length_cons, scanRw, h0]
          rw [ih f (Nat.lt_succ_self f) rest hr]
        · have hlt : rem.length < rest.length + 1 := by
            simpa using hc _ _ _ h0
          simp only [List.length_cons, scanRw, h0]
          rw [ih f (Nat.lt_succ_self f) rem (by omega)]
          rw [ih rest.length (by omega) rem (by omega)]

theorem tryComment_consumes :
    ∀ s e r, tryComment s = some (e, r) → r.length < s.length := by
  intro s e r h
  unfold tryComment at h
  by_cases hp : List.isPrefixOf cmtOpenTok s
  · rw [if_pos hp] at h
    rcases hd : dropAfterSub cmtCloseTok (s.drop 4) with _ | rem
    · rw [hd] at h
      simp at h
    · rw [hd] at h
      have hre : rem = r := by
        have h2 := Option.some_inj.1 h
        exact congrArg Prod.snd h2
      subst hre
      have h3 := dropAfterSub_length (by decide) _ _ hd
      have h4 : 4 ≤ s.length := by
        have := (List.isPrefixOf_iff_prefix.1 hp).length_le
        simpa [cmtOpenTok] using this
      have h5 : (s.drop 4).length = s.length - 4 := List.length_drop 4 s
      omega
  · rw [if_neg hp] at h
    simp at h

theorem closeTokNoPref (a : Char) (i2 X : List Char)
    (hne : List.isPrefixOf cmtCloseTok (a :: i2) = false) :
    List.isPrefixOf cmtCloseTok (a :: (i2 ++ (cmtCloseTok ++ X))) = false := by
  rcases i2 with _ | ⟨d, i3⟩
  · simp [cmtCloseTok, List.isPrefixOf]
  · rcases i3 with _ | ⟨e, i4⟩
    · simp [cmtCloseTok, List.isPrefixOf]
    · simp only [cmtCloseTok, List.isPrefixOf, List.cons_append] at hne ⊢
      simpa using hne

theorem dropAfter_close (i X : List Char) (hi : hasSub cmtCloseTok i = false) :
    dropAfterSub cmtCloseTok (i ++ (cmtCloseTok ++ X)) = some X := by
  induction i with
  | nil =>
    show dropAfterSub cmtCloseTok ([] ++ (cmtCloseTok ++ X)) = some X
    rw [List.nil_append]
    have hpre : List.isPrefixOf cmtCloseTok ('-' :: '-' :: '>' :: X) = true := by
      simp [cmtCloseTok, List.isPrefixOf]
    show dropAfterSub cmtCloseTok ('-' :: '-' :: '>' :: X) = some X
    unfold dropAfterSub
    rw [if_pos hpre]
    rfl
  | cons a i2 ih =>
    have hsplit := Bool.or_eq_false_iff.1 (by simpa [hasSub] using hi)
    have hg : List.isPrefixOf cmtCloseTok
        (a :: (i2 ++ (cmtCloseTok ++ X))) = false :=
      closeTokNoPref a i2 X hsplit.1
    show dropAfterSub cmtCloseTok (a :: (i2 ++ (cmtCloseTok ++ X))) = some X
    unfold dropAfterSub
    rw [hg]
    simp only [Bool.false_eq_true, if_false]
    exact ih hsplit.2

theorem openTokNoPref (a : Char) (p2 X : List Char)
    (hne : List.isPrefixOf cmtOpenTok (a :: p2) = false) :
    List.isPrefixOf cmtOpenTok (a :: (p2 ++ (cmtOpenTok ++ X))) = false := by
  rcases p2 with _ | ⟨d, p3⟩
  · simp [cmtOpenTok, List.isPrefixOf]
  · rcases p3 with _ | ⟨e, p4⟩
    · simp [cmtOpenTok, List.isPrefixOf]
    · rcases p4 with _ | ⟨g, p5⟩
      · simp [cmtOpenTok, List.isPrefixOf]
      · simp only [cmtOpenTok, List.isPrefixOf, List.cons_append] at hne ⊢
        simpa using hne

theorem removeComments_decomp :
    ∀ (pre i post : List Char), hasSub cmtOpenTok pre = false →
      hasSub cmtCloseTok i = false →
      ∀ f : Nat, (pre ++ (cmtOpenTok ++ (i ++ (cmtCloseTok ++ post)))).length ≤ f →
        scanRw tryComment f (pre ++ (cmtOpenTok ++ (i ++ (cmtCloseTok ++ post)))) =
          pre ++ scanRw tryComment post.length post := by
  intro pre
  induction pre with
  | nil =>
    intro i post _ hi f hf
    rw [List.nil_append] at hf ⊢
    have hw : cmtOpenTok ++ (i ++ (cmtCloseTok ++ post)) =
        '<' :: ('!' :: '-' :: '-' :: (i ++ (cmtCloseTok ++ post))) := rfl
    have htry : tryComment (cmtOpenTok ++ (i ++ (cmtCloseTok ++ post))) =
        some ([], post) := by
      unfold tryComment
      rw [if_pos (List.isPrefixOf_iff_prefix.2 (List.prefix_append _ _))]
      have hdrop : (cmtOpenTok ++ (i ++ (cmtCloseTok ++ post))).drop 4 =
          i ++ (cmtCloseTok ++ post) := rfl
      rw [hdrop, dropAfter_close i post hi]
    cases f with
    | zero =>
      exfalso
      simp [cmtOpenTok] at hf
    | succ f =>
      rw [hw]
      simp only [scanRw]
      rw [← hw, htry]
      simp only [List.nil_append]
      have hlen : post.length ≤ f := by
        simp [cmtOpenTok, cmtCloseTok, List.length_append] at hf
        omega
      exact scanRw_fuel tryComment tryComment_consumes f post hlen
  | cons a pre2 ih =>
    intro i post hpre hi f hf
    have hsplit := Bool.or_eq_false_iff.1 (by simpa [hasSub] using hpre)
    have hg : tryComment ((a :: pre2) ++ (cmtOpenTok ++ (i ++ (cmtCloseTok ++ post)))) =
        none := by
      unfold tryComment
      rw [List.cons_append]
      rw [openTokNoPref a pre2 (i ++ (cmtCloseTok ++ post)) hsplit.1]
      simp
    cases f with
    | zero =>
      exfalso
      simp [cmtOpenTok] at hf
    | succ f =>
      rw [List.cons_append]
      simp only [scanRw]
      rw [← List.cons_append, hg]
      simp only []
      rw [List.cons_append] at hf
      have hlen : (pre2 ++ (cmtOpenTok ++ (i ++ (cmtCloseTok ++ post)))).length ≤ f := by
        simpa using hf
      rw [ih i post hsplit.2 hi f hlen]
      rw [List.cons_append]

/-- Counterexample to claim C5 as stated: two documents identical outside
one comment interior; the interior holding a brace corrupts the field
locator's depth counter — comment stripping runs only inside
parse_genre_field, after the locator's bracket counting — so the born
field leaks into the genre value. -/
theorem claim5_comment_cex :
    extract_genres_from_infobox
        "\x7b\x7bInfobox m\n| genre = pop <!-- x -->\n| born = b\n\x7d\x7d" =
      some ["pop"] ∧
    extract_genres_from_infobox
        "\x7b\x7bInfobox m\n| genre = pop <!-- \x7b -->\n| born = b\n\x7d\x7d" =
      some ["pop", "born = b"] ∧
    ¬ (some ["pop"] : Option (List String)) = some ["pop", "born = b"] :=
  ⟨by decide, by decide, by decide⟩

/-- Claim C5 (amended): within parse_genre_field comment stripping runs
first, before any bracket counting, so the field parser is noninterfering
in comment interiors: two field texts identical outside one comment
interior (interiors free of the closing marker, text before the comment
free of a comment opener) yield identical genre lists. -/
theorem claim5_comment_noninterference (pre i1 i2 post : List Char)
    (hpre : hasSub cmtOpenTok pre = false)
    (h1 : hasSub cmtCloseTok i1 = false) (h2 : hasSub cmtCloseTok i2 = false) :
    parseGenreList (pre ++ (cmtOpenTok ++ (i1 ++ (cmtCloseTok ++ post)))) =
      parseGenreList (pre ++ (cmtOpenTok ++ (i2 ++ (cmtCloseTok ++ post)))) := by
  have key : removeComments (pre ++ (cmtOpenTok ++ (i1 ++ (cmtCloseTok ++ post)))) =
      removeComments (pre ++ (cmtOpenTok ++ (i2 ++ (cmtCloseTok ++ post)))) := by
    unfold removeComments
    rw [removeComments_decomp pre i1 post hpre h1 _ (le_refl _)]
    rw [removeComments_decomp pre i2 post hpre h2 _ (le_refl _)]
  unfold parseGenreList rawCandidates preprocessField
  rw [key]

/-- Witness for claim C5 at a concrete field text with one comment. -/
theorem claim5_comment_noninterference_witness :
    hasSub cmtOpenTok ("pop ".data) = false ∧
    hasSub cmtCloseTok (" x ".data) = false ∧
    hasSub cmtCloseTok (" y ".data) = false ∧
    parseGenreList ("pop ".data ++ (cmtOpenTok ++ (" x ".data ++ (cmtCloseTok ++ [])))) =
      parseGenreList ("pop ".data ++ (cmtOpenTok ++ (" y ".data ++ (cmtCloseTok ++ [])))) :=
  ⟨by decide, by decide, by decide,
   claim5_comment_noninterference _ _ _ _ (by decide) (by decide) (by decide)⟩

theorem map_id_of (f : Char → Char) :
    ∀ l : List Char, (∀ c ∈ l, f c = c) → l.map f = l := by
  intro l
  induction l with
  | nil => intro _; rfl
  | cons c rest ih =>
    intro h
    rw [List.map_cons, h c (List.mem_cons_self _ _),
        ih (fun a ha => h a (List.mem_cons_of_mem _ ha))]

theorem tryWikiGS_none {l : List Char} (h : ¬ '[' ∈ l) :
    ∀ s : List Char, s <:+ l → tryWikiGS s = none := by
  intro s hs
  have hn : ¬ s.take 2 = ['[', '['] := by
    intro he
    apply h
    apply hs.subset
    have h2 : '[' ∈ s.take 2 := by
      rw [he]
      exact List.mem_cons_self _ _
    exact List.take_subset 2 s h2
  unfold tryWikiGS
  rw [if_neg hn]

theorem tryRefPaired_none {l : List Char} (h : hasSub refTok l = false) :
    ∀ s : List Char, s <:+ l → tryRefPaired s = none := by
  intro s hs
  unfold tryRefPaired
  rw [pref_suffix_of_hasSub_false h hs]
  simp

theorem tryRefSelf_none {l : List Char} (h : hasSub refTok l = false) :
    ∀ s : List Char, s <:+ l → tryRefSelf s = none := by
  intro s hs
  unfold tryRefSelf
  rw [pref_suffix_of_hasSub_false h hs]
  simp

theorem tryRefStray_none {l : List Char} (h : hasSub refTok l = false) :
    ∀ s : List Char, s <:+ l → tryRefStray s = none := by
  intro s hs
  unfold tryRefStray
  rw [pref_suffix_of_hasSub_false h hs]
  simp

theorem tryComment_none {l : List Char} (h : hasSub cmtOpenTok l = false) :
    ∀ s : List Char, s <:+ l → tryComment s = none := by
  intro s hs
  unfold tryComment
  rw [pref_suffix_of_hasSub_false h hs]
  simp

theorem tryHttp_none {l : List Char} (h1 : hasSub ("http://".data) l = false)
    (h2 : hasSub ("https://".data) l = false) :
    ∀ s : List Char, s <:+ l → tryHttp s = none := by
  intro s hs
  unfold tryHttp
  rw [pref_suffix_of_hasSub_false h2 hs, pref_suffix_of_hasSub_false h1 hs]
  simp

theorem tryWww_none {l : List Char} (h : hasSub ("www.".data) l = false) :
    ∀ s : List Char, s <:+ l → tryWww s = none := by
  intro s hs
  unfold tryWww
  rw [pref_suffix_of_hasSub_false h hs]
  simp

theorem variants_id {l : List Char} (h : ¬ l ∈ rockVariants.map (fun vp => vp.1)) :
    rockVariants.foldl (fun g vp => if g = vp.1 then vp.2 else g) l = l := by
  simp only [rockVariants, List.map_cons, List.map_nil, List.mem_cons,
    List.not_mem_nil, or_false, not_or] at h
  obtain ⟨h1, h2, h3, h4, h5⟩ := h
  simp [rockVariants, List.foldl, h1, h2, h3, h4, h5]

theorem normList_id {l : List Char} (h : cleanP l) : normList l = l := by
  obtain ⟨hchars, hstrip, hcoll, href, hcmt, hh1, hh2, hww, hvar⟩ := h
  have hlow : lowerL l = l :=
    map_id_of pyLower l (fun c hc => by
      unfold pyLower
      rw [if_neg]
      intro hup
      exact absurd hup (by simpa using (hchars c hc).1))
  have hbr : ¬ '[' ∈ l := fun hin => absurd (by decide) ((hchars _ hin).2.1)
  have hwiki : scanRw tryWikiGS l.length l = l :=
    scanRw_id tryWikiGS l.length l (tryWikiGS_none hbr)
  have hfil1 : l.filter (fun c => ¬ c ∈ bracketChars) = l :=
    List.filter_eq_self.2 (fun a ha => by simpa using (hchars a ha).2.1)
  have hrefp : scanRw tryRefPaired l.length l = l :=
    scanRw_id tryRefPaired l.length l (tryRefPaired_none href)
  have hrefs : scanRw tryRefSelf l.length l = l :=
    scanRw_id tryRefSelf l.length l (tryRefSelf_none href)
  have hrefo : scanRw tryRefStray l.length l = l :=
    scanRw_id tryRefStray l.length l (tryRefStray_none href)
  have hcm : scanRw tryComment l.length l = l :=
    scanRw_id tryComment l.length l (tryComment_none hcmt)
  have hhtp : scanRw tryHttp l.length l = l :=
    scanRw_id tryHttp l.length l (tryHttp_none hh1 hh2)
  have hwwI : scanRw tryWww l.length l = l :=
    scanRw_id tryWww l.length l (tryWww_none hww)
  have hfil2 : l.filter (fun c => ¬ c ∈ braceQuoteChars) = l :=
    List.filter_eq_self.2 (fun a ha => by simpa using (hchars a ha).2.2)
  have hv : rockVariants.foldl (fun g vp => if g = vp.1 then vp.2 else g) l = l :=
    variants_id hvar
  unfold normList
  simp only []
  rw [hlow, hstrip, hwiki, hfil1, hrefp, hrefs, hrefo, hcm, hhtp, hwwI, hfil2,
      hv, hcoll, hstrip]

/-- Counterexample to claim C3 as stated: collapsing the doubled spaces
produces the variant spelling rock n roll, which only the second
application of the normalizer rewrites to rock and roll. -/
theorem claim3_idempotence_cex :
    ¬ normalize_genre (normalize_genre "rock  n  roll") =
      normalize_genre "rock  n  roll" := by decide

/-- Claim C3 (amended): normalize_genre is idempotent on every raw label
whose first normalization lands in the normal form cleanP (no uppercase,
no bracket, brace or quote characters, whitespace already collapsed and
stripped, none of the substrings the removal passes rewrite, not a
rock-variant spelling); outside that class a second application can
differ, as the counterexample shows. -/
theorem claim3_idempotence_amended (s : String) (h : cleanP (normList s.data)) :
    normalize_genre (normalize_genre s) = normalize_genre s := by
  have hd : ∀ x : List Char, (⟨x⟩ : String).data = x := fun _ => rfl
  simp only [normalize_genre, hd]
  rw [normList_id h]

/-- Witness for claim C3 at a label whose normalization is clean. -/
theorem claim3_idempotence_amended_witness :
    cleanP (normList ("Punk Rock".data)) ∧
    normalize_genre (normalize_genre "Punk Rock") = normalize_genre "Punk Rock" :=
  ⟨by decide, claim3_idempotence_amended "Punk Rock" (by decide)⟩

theorem toNat_ofNat_small {n : Nat} (h : n < 55296) :
    (Char.ofNat n).toNat = n := by
  rw [Char.ofNat, dif_pos (Or.inl h)]
  rfl

theorem pyLower_noUpper (c : Char) : isUpperA (pyLower c) = false := by
  unfold pyLower
  by_cases h : isUpperA c = true
  · rw [if_pos h]
    have hb : 65 ≤ c.toNat ∧ c.toNat ≤ 90 := by
      simpa [isUpperA] using h
    have ht : (Char.ofNat (c.toNat + 32)).toNat = c.toNat + 32 :=
      toNat_ofNat_small (by omega)
    simp only [isUpperA, ht]
    simp only [decide_eq_false_iff_not, not_and]
    intro _
    omega
  · rw [if_neg h]
    exact Bool.eq_false_iff.2 h

theorem wikiNoGroup_chars (rest e r : List Char) (h : wikiNoGroup rest = some (e, r)) :
    (∀ a, a ∈ e → a ∈ rest) ∧ (∀ a, a ∈ r → a ∈ rest) := by
  unfold wikiNoGroup at h
  split at h
  · have h2 := Option.some_inj.1 h
    injection h2 with he hr
    subst he
    subst hr
    constructor
    · intro a ha
      exact (List.takeWhile_sublist _).subset ha
    · intro a ha
      exact List.drop_subset _ _ (List.drop_subset _ _ ha)
  · exact absurd h (by simp)

theorem tryWikiGS_chars :
    ∀ s e r, tryWikiGS s = some (e, r) →
      (∀ a, a ∈ e → a ∈ s) ∧ (∀ a, a ∈ r → a ∈ s) := by
  intro s e r h
  unfold tryWikiGS at h
  split at h
  · have hds : ∀ a, a ∈ s.drop 2 → a ∈ s := fun a ha => List.drop_subset _ _ ha
    have hng : wikiNoGroup (s.drop 2) = some (e, r) →
        (∀ a, a ∈ e → a ∈ s) ∧ (∀ a, a ∈ r → a ∈ s) := by
      intro hh
      have h3 := wikiNoGroup_chars _ _ _ hh
      exact ⟨fun a ha => hds a (h3.1 a ha), fun a ha => hds a (h3.2 a ha)⟩
    split at h
    · split at h
      · have h2 := Option.some_inj.1 h
        injection h2 with he hr
        subst he
        subst hr
        constructor
        · intro a ha
          apply hds
          unfold wgsG at ha
          apply List.drop_subset _ _
          apply (List.tail_sublist _).subset
          exact (List.takeWhile_sublist _).subset ha
        · intro a ha
          apply hds
          have h4 : a ∈ wgsR3 (s.drop 2) := List.drop_subset _ _ ha
          unfold wgsR3 at h4
          apply List.drop_subset _ _
          apply (List.tail_sublist _).subset
          exact List.drop_subset _ _ h4
      · exact hng h
    · exact hng h
  · exact absurd h (by simp)

theorem afterTagRun_subset (l : List Char) : ∀ a, a ∈ afterTagRun l → a ∈ l := by
  intro a ha
  unfold afterTagRun at ha
  exact List.drop_subset _ _ (List.drop_subset _ _ ha)

theorem tryRefPaired_chars :
    ∀ s e r, tryRefPaired s = some (e, r) →
      (∀ a, a ∈ e → a ∈ s) ∧ (∀ a, a ∈ r → a ∈ s) := by
  intro s e r h
  unfold tryRefPaired at h
  split at h
  · split at h
    · rename_i afterGt heq
      split at h
      · rename_i rem hdrop
        have h2 := Option.some_inj.1 h
        injection h2 with he hr
        subst he
        subst hr
        refine ⟨fun a ha => absurd ha (List.not_mem_nil a), fun a ha => ?_⟩
        have h4 : a ∈ afterGt := dropAfterSub_mem _ _ hdrop a ha
        apply afterTagRun_subset s
        rw [heq]
        exact List.mem_cons_of_mem _ h4
      · exact absurd h (by simp)
    · exact absurd h (by simp)
  · exact absurd h (by simp)

theorem tryRefSelf_chars :
    ∀ s e r, tryRefSelf s = some (e, r) →
      (∀ a, a ∈ e → a ∈ s) ∧ (∀ a, a ∈ r → a ∈ s) := by
  intro s e r h
  unfold tryRefSelf at h
  split at h
  · split at h
    · rename_i rest heq
      split at h
      · have h2 := Option.some_inj.1 h
        injection h2 with he hr
        subst he
        subst hr
        refine ⟨fun a ha => absurd ha (List.not_mem_nil a), fun a ha => ?_⟩
        apply afterTagRun_subset s
        rw [heq]
        exact List.mem_cons_of_mem _ ha
      · exact absurd h (by simp)
    · exact absurd h (by simp)
  · exact absurd h (by simp)

theorem tryRefStray_chars :
    ∀ s e r, tryRefStray s = some (e, r) →
      (∀ a, a ∈ e → a ∈ s) ∧ (∀ a, a ∈ r → a ∈ s) := by
  intro s e r h
  unfold tryRefStray at h
  split at h
  · split at h
    · rename_i rest heq
      have h2 := Option.some_inj.1 h
      injection h2 with he hr
      subst he
      subst hr
      refine ⟨fun a ha => absurd ha (List.not_mem_nil a), fun a ha => ?_⟩
      apply afterTagRun_subset s
      rw [heq]
      exact List.mem_cons_of_mem _ ha
    · exact absurd h (by simp)
  · exact absurd h (by simp)

theorem tryComment_chars :
    ∀ s e r, tryComment s = some (e, r) →
      (∀ a, a ∈ e → a ∈ s) ∧ (∀ a, a ∈ r → a ∈ s) := by
  intro s e r h
  unfold tryComment at h
  split at h
  · split at h
    · rename_i rem hdrop
      have h2 := Option.some_inj.1 h
      injection h2 with he hr
      subst he
      subst hr
      refine ⟨fun a ha => absurd ha (List.not_mem_nil a), fun a ha => ?_⟩
      exact List.drop_subset _ _ (dropAfterSub_mem _ _ hdrop a ha)
    · exact absurd h (by simp)
  · exact absurd h (by simp)

theorem tryUrlTail_chars (k : Nat) :
    ∀ l e r, tryUrlTail k l = some (e, r) →
      (∀ a, a ∈ e → a ∈ l) ∧ (∀ a, a ∈ r → a ∈ l) := by
  intro l e r h
  unfold tryUrlTail at h
  split at h
  · exact absurd h (by simp)
  · have h2 := Option.some_inj.1 h
    injection h2 with he hr
    subst he
    subst hr
    refine ⟨fun a ha => absurd ha (List.not_mem_nil a), fun a ha => ?_⟩
    exact List.drop_subset _ _ (List.drop_subset _ _ ha)

theorem tryHttp_chars :
    ∀ s e r, tryHttp s = some (e, r) →
      (∀ a, a ∈ e → a ∈ s) ∧ (∀ a, a ∈ r → a ∈ s) := by
  intro s e r h
  unfold tryHttp at h
  split at h
  · exact tryUrlTail_chars 8 s e r h
  · split at h
    · exact tryUrlTail_chars 7 s e r h
    · exact absurd h (by simp)

theorem tryWww_chars :
    ∀ s e r, tryWww s = some (e, r) →
      (∀ a, a ∈ e → a ∈ s) ∧ (∀ a, a ∈ r → a ∈ s) := by
  intro s e r h
  unfold tryWww at h
  split at h
  · exact tryUrlTail_chars 4 s e r h
  · exact absurd h (by simp)

theorem splitOnP_chars (p : Char → Bool) :
    ∀ (l acc w : List Char), w ∈ splitOnP p l acc →
      ∀ c, c ∈ w → c ∈ l ∨ c ∈ acc := by
  intro l
  induction l with
  | nil =>
    intro acc w hw c hc
    simp [splitOnP] at hw
    subst hw
    right
    exact List.mem_reverse.1 hc
  | cons x rest ih =>
    intro acc w hw c hc
    unfold splitOnP at hw
    by_cases hp : p x = true
    · rw [if_pos hp] at hw
      rcases List.mem_cons.1 hw with h | h
      · subst h
        right
        exact List.mem_reverse.1 hc
      · rcases ih [] w h c hc with h2 | h2
        · exact Or.inl (List.mem_cons_of_mem _ h2)
        · exact absurd h2 (List.not_mem_nil c)
    · rw [if_neg hp] at hw
      rcases ih (x :: acc) w hw c hc with h2 | h2
      · exact Or.inl (List.mem_cons_of_mem _ h2)
      · rcases List.mem_cons.1 h2 with h3 | h3
        · exact Or.inl (h3 ▸ List.mem_cons_self _ _)
        · exact Or.inr h3

theorem joinSep_chars (sep : Char) :
    ∀ (ws : List (List Char)) (c : Char), c ∈ joinSep sep ws →
      c = sep ∨ ∃ w, w ∈ ws ∧ c ∈ w := by
  intro ws
  induction ws with
  | nil =>
    intro c hc
    simp [joinSep] at hc
  | cons w rest ih =>
    intro c hc
    cases rest with
    | nil =>
      right
      exact ⟨w, List.mem_cons_self _ _, hc⟩
    | cons w2 rest2 =>
      rw [joinSep] at hc
      rcases List.mem_append.1 hc with h | h
      · right
        exact ⟨w, List.mem_cons_self _ _, h⟩
      · rcases List.mem_cons.1 h with h2 | h2
        · exact Or.inl h2
        · rcases ih c h2 with h3 | ⟨w3, hw3, hc3⟩
          · exact Or.inl h3
          · exact Or.inr ⟨w3, List.mem_cons_of_mem _ hw3, hc3⟩

theorem pyStrip_subset (l : List Char) : ∀ c, c ∈ pyStrip l → c ∈ l := by
  intro c hc
  unfold pyStrip at hc
  rw [List.mem_reverse] at hc
  have h1 := (List.dropWhile_sublist _).subset hc
  rw [List.mem_reverse] at h1
  exact (List.dropWhile_sublist _).subset h1

theorem noUpper_strip {y : List Char} (h : ∀ c ∈ y, isUpperA c = false) :
    ∀ c ∈ pyStrip y, isUpperA c = false :=
  fun c hc => h c (pyStrip_subset y c hc)

theorem noUpper_collapse {y : List Char} (h : ∀ c ∈ y, isUpperA c = false) :
    ∀ c ∈ collapseWs y, isUpperA c = false := by
  intro c hc
  unfold collapseWs at hc
  rcases joinSep_chars ' ' (pyWords y) c hc with h2 | ⟨w, hw, hcw⟩
  · subst h2
    decide
  · apply h
    unfold pyWords at hw
    have hw2 := (List.mem_filter.1 hw).1
    rcases splitOnP_chars isPySpace y [] w hw2 c hcw with h3 | h3
    · exact h3
    · exact absurd h3 (List.not_mem_nil c)

theorem noUpper_variants {y : List Char} (h : ∀ c ∈ y, isUpperA c = false) :
    ∀ c ∈ rockVariants.foldl (fun g vp => if g = vp.1 then vp.2 else g) y,
      isUpperA c = false := by
  have key : ∀ (ps : List (List Char × List Char)) (z : List Char),
      (∀ p ∈ ps, ∀ c ∈ p.2, isUpperA c = false) →
      (∀ c ∈ z, isUpperA c = false) →
      ∀ c ∈ ps.foldl (fun g vp => if g = vp.1 then vp.2 else g) z,
        isUpperA c = false := by
    intro ps
    induction ps with
    | nil => intro z _ hz; exact hz
    | cons p rest ih =>
      intro z hp hz
      rw [List.foldl_cons]
      by_cases he : z = p.1
      · rw [if_pos he]
        exact ih p.2 (fun q hq => hp q (List.mem_cons_of_mem _ hq))
          (hp p (List.mem_cons_self _ _))
      · rw [if_neg he]
        exact ih z (fun q hq => hp q (List.mem_cons_of_mem _ hq)) hz
  exact key rockVariants y (by decide) h

theorem noUpper_filter {y : List Char} (p : Char → Bool)
    (h : ∀ c ∈ y, isUpperA c = false) :
    ∀ c ∈ y.filter p, isUpperA c = false :=
  fun c hc => h c ((List.filter_sublist y).subset hc)

theorem noUpper_scan (tryF : List Char → Option (List Char × List Char))
    (hch : ∀ s e r, tryF s = some (e, r) →
      (∀ a, a ∈ e → a ∈ s) ∧ (∀ a, a ∈ r → a ∈ s))
    (f : Nat) {y : List Char} (h : ∀ c ∈ y, isUpperA c = false) :
    ∀ c ∈ scanRw tryF f y, isUpperA c = false :=
  fun c hc => h c (scanRw_chars tryF hch f y c hc)

theorem normList_noUpper (x : List Char) : ∀ c ∈ normList x, isUpperA c = false := by
  have p0 : ∀ c ∈ lowerL x, isUpperA c = false := by
    intro c hc
    rcases List.mem_map.1 hc with ⟨d, _, rfl⟩
    exact pyLower_noUpper d
  unfold normList
  simp only []
  apply noUpper_strip
  apply noUpper_collapse
  apply noUpper_variants
  apply noUpper_filter
  apply noUpper_scan tryWww tryWww_chars
  apply noUpper_scan tryHttp tryHttp_chars
  apply noUpper_scan tryComment tryComment_chars
  apply noUpper_scan tryRefStray tryRefStray_chars
  apply noUpper_scan tryRefSelf tryRefSelf_chars
  apply noUpper_scan tryRefPaired tryRefPaired_chars
  apply noUpper_filter
  apply noUpper_scan tryWikiGS tryWikiGS_chars
  apply noUpper_strip
  exact p0

theorem normStep_eq (acc : List (List Char)) (g : List Char) :
    normStep acc g =
      if genreOk (normOf g) ∧ ¬ normOf g ∈ acc then acc ++ [normOf g] else acc := rfl

theorem normFold_nodup :
    ∀ (cands acc : List (List Char)), acc.Nodup →
      (cands.foldl normStep acc).Nodup := by
  intro cands
  induction cands with
  | nil => intro acc h; exact h
  | cons g rest ih =>
    intro acc h
    rw [List.foldl_cons, normStep_eq]
    split
    · rename_i hc
      apply ih
      rw [List.nodup_append]
      refine ⟨h, List.nodup_singleton _, ?_⟩
      intro a ha hb
      apply hc.2
      rw [List.mem_singleton.1 hb] at ha
      exact ha
    · exact ih acc h

theorem normFold_mem :
    ∀ (cands acc : List (List Char)),
      (∀ n ∈ acc, genreOk n = true ∧ ∃ g, n = normOf g) →
      ∀ n ∈ cands.foldl normStep acc, genreOk n = true ∧ ∃ g, n = normOf g := by
  intro cands
  induction cands with
  | nil => intro acc h; exact h
  | cons g rest ih =>
    intro acc h
    rw [List.foldl_cons, normStep_eq]
    split
    · rename_i hc
      apply ih
      intro n hn
      rcases List.mem_append.1 hn with h2 | h2
      · exact h n h2
      · rw [List.mem_singleton.1 h2]
        exact ⟨hc.1, g, rfl⟩
    · exact ih acc h

theorem normFold_sublist :
    ∀ (cands acc : List (List Char)),
      List.Sublist (cands.foldl normStep acc) (acc ++ cands.map normOf) := by
  intro cands
  induction cands with
  | nil => intro acc; simp
  | cons g rest ih =>
    intro acc
    rw [List.foldl_cons, normStep_eq, List.map_cons]
    split
    · have h1 := ih (acc ++ [normOf g])
      have h2 : (acc ++ [normOf g]) ++ rest.map normOf =
          acc ++ (normOf g :: rest.map normOf) := by simp
      rw [h2] at h1
      exact h1
    · apply (ih acc).trans
      apply List.Sublist.append_left
      exact List.sublist_cons_self _ _

theorem dkfGo_mem : ∀ (l seen : List (List Char)) (x : List Char),
    x ∈ dkfGo l seen → x ∉ seen ∧ x ∈ l := by
  intro l
  induction l with
  | nil => intro seen x hx; simp [dkfGo] at hx
  | cons y rest ih =>
    intro seen x hx
    unfold dkfGo at hx
    split at hx
    · obtain ⟨h1, h2⟩ := ih seen x hx
      exact ⟨h1, List.mem_cons_of_mem _ h2⟩
    · rename_i hy
      rcases List.mem_cons.1 hx with h | h
      · subst h
        exact ⟨hy, List.mem_cons_self _ _⟩
      · obtain ⟨h1, h2⟩ := ih _ x h
        refine ⟨?_, List.mem_cons_of_mem _ h2⟩
        intro hc
        exact h1 (List.mem_append.2 (Or.inl hc))

theorem firstIdx_cons_ne (x y : List Char) (rest : List (List Char)) (h : ¬ y = x) :
    firstIdx x (y :: rest) = firstIdx x rest + 1 := by
  simp only [firstIdx]
  rw [if_neg h]

theorem dkfGo_pairwise :
    ∀ (l seen : List (List Char)),
      (dkfGo l seen).Pairwise (fun x y => firstIdx x l < firstIdx y l) := by
  intro l
  induction l with
  | nil => intro seen; simp [dkfGo]
  | cons z rest ih =>
    intro seen
    unfold dkfGo
    split
    · rename_i hz
      apply List.Pairwise.imp_of_mem ?_ (ih seen)
      intro x y hx hy hlt
      have hxz : ¬ z = x := fun he => (dkfGo_mem rest seen x hx).1 (he ▸ hz)
      have hyz : ¬ z = y := fun he => (dkfGo_mem rest seen y hy).1 (he ▸ hz)
      rw [firstIdx_cons_ne x z rest hxz, firstIdx_cons_ne y z rest hyz]
      omega
    · rename_i hz
      apply List.Pairwise.cons
      · intro y hy
        have h1 := dkfGo_mem rest (seen ++ [z]) y hy
        have hyz : ¬ z = y := by
          intro he
          exact h1.1 (List.mem_append.2 (Or.inr (he ▸ List.mem_cons_self _ _)))
        rw [firstIdx_cons_ne y z rest hyz]
        unfold firstIdx
        rw [if_pos rfl]
        omega
      · apply List.Pairwise.imp_of_mem ?_ (ih (seen ++ [z]))
        intro x y hx hy hlt
        have hxz : ¬ z = x := fun he =>
          (dkfGo_mem rest (seen ++ [z]) x hx).1
            (List.mem_append.2 (Or.inr (he ▸ List.mem_cons_self _ _)))
        have hyz : ¬ z = y := fun he =>
          (dkfGo_mem rest (seen ++ [z]) y hy).1
            (List.mem_append.2 (Or.inr (he ▸ List.mem_cons_self _ _)))
        rw [firstIdx_cons_ne x z rest hxz, firstIdx_cons_ne y z rest hyz]
        omega

theorem normFold_eq_dkf :
    ∀ (cands acc : List (List Char)),
      cands.foldl normStep acc =
        acc ++ dkfGo ((cands.map normOf).filter genreOk) acc := by
  intro cands
  induction cands with
  | nil => intro acc; simp [dkfGo]
  | cons g rest ih =>
    intro acc
    rw [List.foldl_cons, normStep_eq, List.map_cons]
    split
    · rename_i hc
      rw [List.filter_cons_of_pos hc.1]
      rw [ih (acc ++ [normOf g])]
      have hd : dkfGo (normOf g :: (rest.map normOf).filter genreOk) acc =
          normOf g :: dkfGo ((rest.map normOf).filter genreOk) (acc ++ [normOf g]) := by
        simp only [dkfGo]
        rw [if_neg hc.2]
      rw [hd]
      simp
    · rename_i hc
      by_cases hok : genreOk (normOf g) = true
      · have hmem : normOf g ∈ acc := by
          by_contra hmm
          exact hc ⟨hok, hmm⟩
        rw [List.filter_cons_of_pos hok]
        have hd : dkfGo (normOf g :: (rest.map normOf).filter genreOk) acc =
            dkfGo ((rest.map normOf).filter genreOk) acc := by
          simp only [dkfGo]
          rw [if_pos hmem]
        rw [hd]
        exact ih acc
      · rw [List.filter_cons_of_neg (by simpa using hok)]
        exact ih acc

/-- Claim C7: for every field text the produced genre list has no
repeated entry and preserves the position of each entry's first
occurrence: it equals the keep-first deduplication of the filtered
normalized candidate sequence, the first-occurrence indices of its
entries are strictly increasing along the list, it is an
order-preserving selection of the normalized candidates, and every
entry is non-empty, lowercase, and not a boilerplate skip term. -/
theorem claim7_output_invariants (gt : String) :
    (parse_genre_field gt).Nodup ∧
    parseGenreList gt.data =
      dedupKeepFirst (((rawCandidates gt.data).map normOf).filter genreOk) ∧
    (parseGenreList gt.data).Pairwise
      (fun x y =>
        firstIdx x (((rawCandidates gt.data).map normOf).filter genreOk) <
        firstIdx y (((rawCandidates gt.data).map normOf).filter genreOk)) ∧
    List.Sublist (parseGenreList gt.data) ((rawCandidates gt.data).map normOf) ∧
    ∀ g ∈ parse_genre_field gt,
      ¬ g = "" ∧ (∀ c ∈ g.data, isUpperA c = false) ∧ ¬ g.data ∈ skipTerms := by
  have hnd : (parseGenreList gt.data).Nodup := by
    unfold parseGenreList normFold
    exact normFold_nodup _ [] List.nodup_nil
  have hmem : ∀ n ∈ parseGenreList gt.data,
      genreOk n = true ∧ ∃ g, n = normOf g := by
    unfold parseGenreList normFold
    exact normFold_mem (rawCandidates gt.data) []
      (fun n hn => absurd hn (List.not_mem_nil n))
  have heq : parseGenreList gt.data =
      dedupKeepFirst (((rawCandidates gt.data).map normOf).filter genreOk) := by
    unfold parseGenreList normFold dedupKeepFirst
    have := normFold_eq_dkf (rawCandidates gt.data) []
    simpa using this
  refine ⟨?_, heq, ?_, ?_, ?_⟩
  · unfold parse_genre_field
    exact List.Nodup.map (fun a b hab => congrArg String.data hab) hnd
  · rw [heq]
    unfold dedupKeepFirst
    exact dkfGo_pairwise _ []
  · unfold parseGenreList normFold
    have := normFold_sublist (rawCandidates gt.data) []
    simpa using this
  · intro g hg
    unfold parse_genre_field at hg
    rcases List.mem_map.1 hg with ⟨n, hn, rfl⟩
    obtain ⟨hok, g0, hg0⟩ := hmem n hn
    have hparts : ¬ n = [] ∧ 1 < n.length ∧ ¬ n ∈ skipTerms := by
      unfold genreOk at hok
      simp only [Bool.and_eq_true, decide_eq_true_eq] at hok
      exact ⟨hok.1, hok.2.1, hok.2.2.1⟩
    refine ⟨?_, ?_, ?_⟩
    · intro hcon
      exact hparts.1 (congrArg String.data hcon)
    · have hdata : ((⟨n⟩ : String).data) = n := rfl
      intro c hc
      rw [hdata, hg0] at hc
      unfold normOf at hc
      exact normList_noUpper _ c hc
    · exact hparts.2.2

/-- Witness for claim C7 at a field text whose candidate sequence holds
a duplicate, exercising keep-first deduplication and the per-entry
invariants at a concrete input. -/
theorem claim7_output_invariants_witness :
    parse_genre_field "Disco; Punk rock; Disco" = ["disco", "punk rock"] ∧
    parseGenreList ("Disco; Punk rock; Disco".data) =
      dedupKeepFirst
        (((rawCandidates ("Disco; Punk rock; Disco".data)).map normOf).filter genreOk) ∧
    "punk rock" ∈ parse_genre_field "Disco; Punk rock; Disco" ∧
    ¬ ("punk rock" : String) = "" ∧
    (∀ c ∈ ("punk rock" : String).data, isUpperA c = false) ∧
    ¬ ("punk rock" : String).data ∈ skipTerms :=
  ⟨by decide,
   (claim7_output_invariants "Disco; Punk rock; Disco").2.1,
   by decide,
   ((claim7_output_invariants "Disco; Punk rock; Disco").2.2.2.2 "punk rock" (by decide)).1,
   ((claim7_output_invariants "Disco; Punk rock; Disco").2.2.2.2 "punk rock" (by decide)).2.1,
   ((claim7_output_invariants "Disco; Punk rock; Disco").2.2.2.2 "punk rock" (by decide)).2.2⟩

end GenreScript
